import Mathlib

/-!
Shallow embedding of the mag repository (src/mag/utils.py and src/mag/mag.py):
TSV row decoding (`convert_row`), the sorted-file offset index (`make_index`),
exact binary search (`bin_search`), the bounded group reader
(`search_field_for_paper`), and the full-record join (`gen_full_records`),
together with theorems settling the frozen claims about them.
-/

namespace Mag

/-- A Python runtime value as produced by row decoding: an int, a str, a
float (modelled as a rational; the inputs of interest are finite decimal
literals), or None. -/
inductive Value where
  | vInt (i : Int)
  | vStr (s : String)
  | vFloat (q : Rat)
  | vNone
deriving DecidableEq

/-- Python truthiness of a decoded value: 0, 0.0, the empty string and None
are falsy, everything else is truthy.  Used by the guard
`not(row["PaperId"] and row["OriginalTitle"] and row["Year"])` in
gen_full_records (mag.py line 382). -/
def truthy : Value → Bool
  | .vInt i => i != 0
  | .vStr s => s != ""
  | .vFloat q => q != 0
  | .vNone => false

/-- Python comparison `v > t` against a float threshold `t`
(mag.py line 372).  Comparing an int or float succeeds; comparing None or a
str with a float raises TypeError, modelled as `none`. -/
def pyGt : Value → Rat → Option Bool
  | .vFloat q, t => some (t < q)
  | .vInt i, t => some (t < (i : Rat))
  | .vStr _, _ => none
  | .vNone, _ => none

/-- Python `sys.intern` (mag.py line 339): returns the (identical) string for
a str argument and raises TypeError otherwise, modelled as `none`. -/
def intern : Value → Option Value
  | .vStr s => some (.vStr s)
  | _ => none

/-! ### Parsing of TSV cells (the Python `int`, `float`, `str` constructors
applied by convert_row, and the `rstrip`/`split` line preprocessing). -/

/-- Numeric value of a list of decimal digit characters. -/
def digitsVal (l : List Char) : Nat :=
  l.foldl (fun a c => a * 10 + (c.toNat - 48)) 0

/-- Python `int(s)` on the cell strings of interest: an optional minus sign
followed by decimal digits.  Other accepted Python forms (surrounding
whitespace, a plus sign, underscores) do not occur in the inputs the claims
range over. -/
def pyInt (cs : List Char) : Option Int :=
  match cs with
  | '-' :: rest =>
      if rest ≠ [] ∧ rest.all (·.isDigit) then some (-(digitsVal rest : Int)) else none
  | _ =>
      if cs ≠ [] ∧ cs.all (·.isDigit) then some ((digitsVal cs : Nat) : Int) else none

/-- Python `float(s)` on an unsigned decimal literal — digits, optionally a
dot and further digits (at least one digit overall) — as a
numerator-denominator pair: `a.b` denotes `(ab) / 10 ^ length b`. -/
def pyFloatCore (cs : List Char) : Option (Int × Nat) :=
  match cs.splitOn '.' with
  | [a] => if a ≠ [] ∧ a.all (·.isDigit) then some ((digitsVal a : Int), 1) else none
  | [a, b] =>
      if (a ≠ [] ∨ b ≠ []) ∧ a.all (·.isDigit) ∧ b.all (·.isDigit)
      then some ((digitsVal (a ++ b) : Int), 10 ^ b.length)
      else none
  | _ => none

/-- Python `float(s)` on decimal literals with an optional minus sign. -/
def pyFloat (cs : List Char) : Option Rat :=
  match cs with
  | '-' :: rest => (pyFloatCore rest).map (fun p => mkRat (-p.1) p.2)
  | _ => (pyFloatCore cs).map (fun p => mkRat p.1 p.2)

/-- A column type in a schema (the `int`, `str`, `float` constructors of
mag.py schemas). -/
inductive CType where
  | cInt
  | cStr
  | cFloat
deriving DecidableEq

/-- Applying a column type to a raw cell: `str` never fails, `int` and
`float` yield None (ValueError caught in convert_row) on parse failure. -/
def applyType : CType → List Char → Value
  | .cStr, cs => .vStr ⟨cs⟩
  | .cInt, cs =>
      match pyInt cs with
      | some i => .vInt i
      | none => .vNone
  | .cFloat, cs =>
      match pyFloat cs with
      | some q => .vFloat q
      | none => .vNone

abbrev Schema := List (String × CType)

/-- Python `s.split("\t")`: splitting a character list on tabs; the empty
list yields one empty cell, matching `"".split("\t") == [""]`. -/
def splitCells : List Char → List (List Char)
  | [] => [[]]
  | c :: rest =>
    match splitCells rest with
    | [] => [[]]
    | g :: gs => if c = '\t' then [] :: g :: gs else (c :: g) :: gs

/-- Python `s.rstrip("\n")`: remove all trailing newline characters. -/
def rstripNl (l : List Char) : List Char :=
  (l.reverse.dropWhile (· = '\n')).reverse

/-- The cells of one raw line: `row.rstrip("\n").split("\t")`
(mag.py line 156). -/
def rowCells (line : String) : List (List Char) :=
  splitCells (rstripNl line.toList)

/-- Core of convert_row (mag.py lines 156-170): walk the schema; while cells
remain, convert the matching cell (a failed conversion yields None for that
column only); once the cells are exhausted (IndexError), this column and all
later columns yield None. -/
def convertCells : List (List Char) → Schema → List (String × Value)
  | _, [] => []
  | [], schema => schema.map (fun p => (p.1, Value.vNone))
  | c :: cs, (name, t) :: rest => (name, applyType t c) :: convertCells cs rest

/-- MAG.convert_row (mag.py lines 146-170): decode one raw line according to
a schema, producing one entry per schema column in schema order. -/
def convert_row (line : String) (schema : Schema) : List (String × Value) :=
  convertCells (rowCells line) schema

/-- Python dict access `row[name]` on a decoded row.  Rows built by
convert_row contain every schema column exactly once, so the default branch
is never reached on such rows. -/
def getField (row : List (String × Value)) (name : String) : Value :=
  ((row.find? (fun p => p.1 = name)).map (fun p => p.2)).getD .vNone

/-! ### The fixed schemas of mag.py (lines 17-103). -/

def PAPERS_SCHEMA : Schema :=
  [("PaperId", .cInt), ("Rank", .cInt), ("Doi", .cStr), ("DocType", .cStr),
   ("PaperTitle", .cStr), ("OriginalTitle", .cStr), ("BookTitle", .cStr),
   ("Year", .cInt), ("Date", .cStr), ("OnlineDate", .cStr), ("Publisher", .cStr),
   ("JournalId", .cInt), ("ConferenceSeriesId", .cInt), ("ConferenceInstanceId", .cInt),
   ("Volume", .cStr), ("Issue", .cStr), ("FirstPage", .cStr), ("LastPage", .cStr),
   ("ReferenceCount", .cInt), ("CitationCount", .cInt), ("EstimatedCitation", .cInt),
   ("OriginalVenue", .cStr), ("FamilyId", .cInt), ("FamilyRank", .cInt),
   ("DocSubTypes", .cStr), ("CreatedDate", .cStr)]

def PAPER_AUTHOR_AFFILIATIONS_SCHEMA : Schema :=
  [("PaperId", .cInt), ("AuthorId", .cInt), ("AffiliationId", .cInt),
   ("AuthorSequenceNumber", .cInt), ("OriginalAuthor", .cStr), ("OriginalAffiliation", .cStr)]

def AUTHORS_SCHEMA : Schema :=
  [("AuthorId", .cInt), ("Rank", .cInt), ("NormalizedName", .cStr), ("DisplayName", .cStr),
   ("LastKnownAffiliationId", .cInt), ("PaperCount", .cInt), ("PaperFamilyCount", .cInt),
   ("CitationCount", .cInt), ("CreatedDate", .cStr)]

def PAPER_REFERENCES : Schema :=
  [("PaperId", .cInt), ("PaperReferenceId", .cInt)]

def FIELDS_OF_STUDY : Schema :=
  [("FieldOfStudyId", .cInt), ("Rank", .cInt), ("NormalizedName", .cStr),
   ("DisplayName", .cStr), ("MainType", .cStr), ("Level", .cInt), ("PaperCount", .cInt),
   ("PaperFamilyCount", .cInt), ("CitationCount", .cInt), ("CreatedDate", .cStr)]

def PAPER_FIELDS_OF_STUDY : Schema :=
  [("PaperId", .cInt), ("FieldOfStudyId", .cInt), ("Score", .cFloat)]

def JOURNALS : Schema :=
  [("JournalId", .cInt), ("Rank", .cInt), ("NormalizedName", .cStr), ("DisplayName", .cStr),
   ("Issn", .cStr), ("Publisher", .cStr), ("Webpage", .cStr), ("PaperCount", .cInt),
   ("PaperFamilyCount", .cInt), ("CitationCount", .cInt), ("CreatedDate", .cStr)]

/-! ### Sorted child files, make_index, bin_search, search_field_for_paper. -/

/-- One raw line of a sorted child file, as the index/search machinery of
mag.py sees it: `key` is the integer in the first tab-separated column (the
claims range over files whose first column parses as an int), `value` is the
projected field `row[field_name]` of the decoded row, and `len` is the byte
length of the line including its newline — positive for every line a
readline loop can return. -/
structure Line where
  key : Int
  value : Value
  len : Nat
deriving DecidableEq

/-- Loop of MAG.make_index (mag.py lines 284-307).  `last` is
`last_paper_id_paper_author_affiliations` (`none` plays the initial
`-math.inf`), `beg` is `beg_offset`.  The source appends the new key before
testing the violation; since a violation discards everything by returning
None, testing first is equivalent. -/
def make_index_aux (last : Option Int) (beg : Nat) : List Line → Option (List Int × List Nat)
  | [] => some ([], [])
  | l :: rest =>
    if (match last with | some lp => decide (lp > l.key) | none => false)
    then none
    else
      match make_index_aux (some l.key) (beg + l.len) rest with
      | none => none
      | some (ks, os) =>
        if last = some l.key then some (ks, os) else some (l.key :: ks, beg :: os)

/-- MAG.make_index (mag.py lines 260-307): for a file with non-decreasing
first-column keys, the parallel lists of distinct key values and of byte
offsets of their first lines; None on a violation of the non-decreasing
property. -/
def make_index (file : List Line) : Option (List Int × List Nat) :=
  make_index_aux none 0 file

/-- Total byte length of a list of lines. -/
def sumLen (file : List Line) : Nat :=
  (file.map Line.len).sum

/-- Loop of CPython bisect.bisect_left (used by bin_search, utils.py
line 21): shrink the window `[lo, hi)` until it is empty.  The window
shrinks by at least one element per iteration, so any fuel of at least
`hi - lo` makes the first argument irrelevant; fuel keeps the recursion
structural. -/
def bisectLeftAux (a : List Int) (x : Int) : Nat → Nat → Nat → Nat
  | 0, lo, _ => lo
  | fuel + 1, lo, hi =>
    if lo < hi then
      let mid := (lo + hi) / 2
      if a.getD mid 0 < x then bisectLeftAux a x fuel (mid + 1) hi
      else bisectLeftAux a x fuel lo mid
    else lo

/-- bisect.bisect_left over the whole sequence. -/
def bisectLeft (a : List Int) (x : Int) : Nat :=
  bisectLeftAux a x a.length 0 a.length

/-- bin_search (utils.py lines 12-25): position of an exact match, None when
the value is absent. -/
def bin_search (s : List Int) (x : Int) : Option Nat :=
  let pos := bisectLeft s x
  if h : pos < s.length then
    if s.get ⟨pos, h⟩ = x then some pos else none
  else none

/-- Reading a child file from a byte offset (`gen_fun(f_offset)` with
`f.seek(f_offset)`, mag.py lines 195-198): the suffix of the file starting
at the line whose starting offset equals `off`. -/
def genFrom : List Line → Nat → List Line
  | [], _ => []
  | l :: rest, off => if off = 0 then l :: rest else genFrom rest (off - l.len)

/-- Loop of MAG.search_field_for_paper (mag.py lines 336-339): accept rows
until a different paper id is reached, projecting the field value, interning
it when requested (`none` models the TypeError sys.intern raises on a
non-str value). -/
def collectGroup (paper_id : Int) (useIntern : Bool) : List Line → Option (List Value)
  | [] => some []
  | l :: rest =>
    if l.key ≠ paper_id then some []
    else
      match (if useIntern then intern l.value else some l.value) with
      | none => none
      | some v => (collectGroup paper_id useIntern rest).map (fun vs => v :: vs)

/-- MAG.search_field_for_paper (mag.py lines 309-341): locate the paper id in
the index, return the empty list when it is missing, otherwise collect the
projected values of the contiguous run of rows with that paper id starting
at the indexed offset. -/
def search_field_for_paper (paper_id : Int) (paper_ids_index : List Int)
    (paper_ids_index_offsets : List Nat) (gen : Nat → List Line)
    (useIntern : Bool) : Option (List Value) :=
  match bin_search paper_ids_index paper_id with
  | none => some []
  | some i => collectGroup paper_id useIntern (gen (paper_ids_index_offsets.getD i 0))

/-- The contiguous run of rows carrying `paper_id`, starting at its first
occurrence, projected to values: the specification the bounded group read is
measured against. -/
def groupSpec (file : List Line) (paper_id : Int) : List Value :=
  ((file.dropWhile (fun l => l.key != paper_id)).takeWhile (fun l => l.key == paper_id)).map Line.value

/-! ### The full-record join, MAG.gen_full_records (mag.py lines 343-404).
The six input files are modelled as lists of raw lines; the generators
papers, paper_author_affiliations, ... decode each line with convert_row and
the matching schema. -/

/-- The root folder contents: the lines of the six input files. -/
structure Root where
  papers : List String
  paperAuthorAffiliations : List String
  paperReferences : List String
  fieldsOfStudy : List String
  paperFieldsOfStudy : List String
  journals : List String

/-- `defaultdict(list)` after `m[k].append(v)`: appending one value under a
key. -/
def addMulti (m : Value → List Value) (k v : Value) : Value → List Value :=
  fun q => if q = k then m q ++ [v] else m q

/-- A `defaultdict(list)` filled by one pass over decoded rows, appending
`row[valName]` under `row[keyName]` (mag.py lines 354-361). -/
def buildMulti (rows : List (List (String × Value))) (keyName valName : String) :
    Value → List Value :=
  rows.foldl (fun m row => addMulti m (getField row keyName) (getField row valName)) (fun _ => [])

/-- A dict filled by one pass over decoded rows, `m[row[keyName]] =
row[valName]`, later rows overwriting earlier ones (mag.py lines 364-367 and
375-378); `none` models an absent key. -/
def buildDict (rows : List (List (String × Value))) (keyName valName : String) :
    Value → Option Value :=
  rows.foldl
    (fun m row => fun q => if q = getField row keyName then some (getField row valName) else m q)
    (fun _ => none)

/-- `paper_authors` (mag.py lines 354-356). -/
def paperAuthorsMap (root : Root) : Value → List Value :=
  buildMulti (root.paperAuthorAffiliations.map (fun l => convert_row l PAPER_AUTHOR_AFFILIATIONS_SCHEMA))
    "PaperId" "OriginalAuthor"

/-- `paper_references` (mag.py lines 359-361). -/
def paperReferencesMap (root : Root) : Value → List Value :=
  buildMulti (root.paperReferences.map (fun l => convert_row l PAPER_REFERENCES))
    "PaperId" "PaperReferenceId"

/-- `fields_of_study` (mag.py lines 364-367). -/
def fieldsOfStudyMap (root : Root) : Value → Option Value :=
  buildDict (root.fieldsOfStudy.map (fun l => convert_row l FIELDS_OF_STUDY))
    "FieldOfStudyId" "DisplayName"

/-- `journals` (mag.py lines 375-378). -/
def journalsMap (root : Root) : Value → Option Value :=
  buildDict (root.journals.map (fun l => convert_row l JOURNALS))
    "JournalId" "DisplayName"

/-- `papers_fields_of_study` (mag.py lines 369-373): one pass over the
paper-fields-of-study rows keeping the field ids whose score is strictly
greater than the threshold.  The comparison `row["Score"] > threshold`
raises TypeError on a None or str score, modelled by the whole build
returning `none`. -/
def paperFosAux (thr : Rat) (rows : List (List (String × Value)))
    (m : Value → List Value) : Option (Value → List Value) :=
  match rows with
  | [] => some m
  | row :: rest =>
    match pyGt (getField row "Score") thr with
    | none => none
    | some b =>
      paperFosAux thr rest
        (if b then addMulti m (getField row "PaperId") (getField row "FieldOfStudyId") else m)

/-- `papers_fields_of_study` built from the root. -/
def paperFosMap (root : Root) (thr : Rat) : Option (Value → List Value) :=
  paperFosAux thr (root.paperFieldsOfStudy.map (fun l => convert_row l PAPER_FIELDS_OF_STUDY))
    (fun _ => [])

/-- One emitted full record (mag.py lines 395-404). -/
structure FullRecord where
  PaperId : Value
  OriginalTitle : Value
  Year : Value
  Authors : List Value
  References : List Value
  Fields : List Value
  Doi : Value
  Journal : Value
deriving DecidableEq

/-- The body of the streaming loop of gen_full_records for one decoded paper
row (mag.py lines 381-404): skip unless paper id, title and year are all
truthy; resolve the field names, skipping on a KeyError from the
fields-of-study dict (`mapM` returns `none`); emit only when fields, authors
and references are all non-empty. -/
def emitOne (paperAuthors paperRefs : Value → List Value)
    (fosMap jMap : Value → Option Value) (pfosMap : Value → List Value)
    (paperRow : List (String × Value)) : Option FullRecord :=
  let pid := getField paperRow "PaperId"
  if truthy pid ∧ truthy (getField paperRow "OriginalTitle") ∧ truthy (getField paperRow "Year")
  then
    match (pfosMap pid).mapM fosMap with
    | none => none
    | some fields =>
      let authors := paperAuthors pid
      let references := paperRefs pid
      if fields ≠ [] ∧ authors ≠ [] ∧ references ≠ []
      then some
        { PaperId := pid
          OriginalTitle := getField paperRow "OriginalTitle"
          Year := getField paperRow "Year"
          Authors := authors
          References := references
          Fields := fields
          Doi := getField paperRow "Doi"
          Journal :=
            match jMap (getField paperRow "JournalId") with
            | some v => v
            | none => .vStr "" }
      else none
  else none

/-- MAG.gen_full_records (mag.py lines 343-404): build the five in-memory
maps by one pass over each child file, then stream the papers file in order,
emitting one record per qualifying paper row.  `none` models the run dying
of the TypeError raised while filtering scores; otherwise the emitted
records, in papers-file order. -/
def gen_full_records (root : Root) (thr : Rat) : Option (List FullRecord) :=
  match paperFosMap root thr with
  | none => none
  | some pfos =>
    some ((root.papers.map (fun l => convert_row l PAPERS_SCHEMA)).filterMap
      (emitOne (paperAuthorsMap root) (paperReferencesMap root)
        (fieldsOfStudyMap root) (journalsMap root) pfos))

/-! ## Row decoding: claim C5 -/

theorem convertCells_map_fst (cells : List (List Char)) (schema : Schema) :
    (convertCells cells schema).map Prod.fst = schema.map Prod.fst := by
  induction schema generalizing cells with
  | nil => cases cells <;> simp [convertCells]
  | cons p rest ih =>
    obtain ⟨name, t⟩ := p
    cases cells with
    | nil => simp [convertCells]
    | cons c cs => simp [convertCells, ih]

theorem convertCells_getD (cells : List (List Char)) (schema : Schema) (i : Nat)
    (hi : i < schema.length) :
    (convertCells cells schema).getD i ("", .vNone) =
      ((schema.get ⟨i, hi⟩).1,
        if hc : i < cells.length then applyType (schema.get ⟨i, hi⟩).2 (cells.get ⟨i, hc⟩)
        else .vNone) := by
  induction schema generalizing cells i with
  | nil => simp at hi
  | cons p rest ih =>
    obtain ⟨name, t⟩ := p
    cases cells with
    | nil =>
      rw [show convertCells [] ((name, t) :: rest)
            = ((name, t) :: rest).map (fun p => (p.1, Value.vNone)) from rfl]
      rw [List.getD_eq_getElem _ _ (by simpa using hi), List.getElem_map]
      rw [dif_neg (by simp)]
      simp
    | cons c cs =>
      cases i with
      | zero => simp [convertCells]
      | succ n =>
        have hn : n < rest.length := by simpa using hi
        simp only [convertCells, List.getD_cons_succ, ih cs n hn, List.get_cons_succ]
        by_cases hc : n < cs.length
        · rw [dif_pos hc, dif_pos (by simpa using Nat.succ_lt_succ hc)]
        · rw [dif_neg hc, dif_neg (by simpa using fun h => hc (Nat.lt_of_succ_lt_succ h))]

/-- C5 (amended): convert_row is total and produces one entry per schema
column, in schema order; a column whose cell is absent (the line has too few
tab-separated cells) yields None — and since every later column is then also
absent, every later column yields None as well; a column whose cell is
present yields exactly the result of its own type conversion (None on a
conversion failure), independent of any other column. -/
theorem convert_row_degrades (line : String) (schema : Schema) :
    (convert_row line schema).map Prod.fst = schema.map Prod.fst ∧
    ∀ i, ∀ hi : i < schema.length,
      (convert_row line schema).getD i ("", .vNone) =
        ((schema.get ⟨i, hi⟩).1,
          if hc : i < (rowCells line).length
          then applyType (schema.get ⟨i, hi⟩).2 ((rowCells line).get ⟨i, hc⟩)
          else .vNone) :=
  ⟨convertCells_map_fst (rowCells line) schema,
   fun i hi => convertCells_getD (rowCells line) schema i hi⟩

/-- Witness for C5 at a concrete short line: the line `"a\t5"` has cells for
the first two schema columns only, so under the schema
`[(A, int), (B, int), (C, str)]` the names come out in schema order and
column C, absent from the line, decodes to None. -/
theorem convert_row_degrades_witness :
    (convert_row "a\t5" [("A", CType.cInt), ("B", CType.cInt), ("C", CType.cStr)]).map Prod.fst
        = ["A", "B", "C"] ∧
    (convert_row "a\t5" [("A", CType.cInt), ("B", CType.cInt), ("C", CType.cStr)]).getD 2
        ("", .vNone) = ("C", Value.vNone) := by
  have h := convert_row_degrades "a\t5" [("A", CType.cInt), ("B", CType.cInt), ("C", CType.cStr)]
  refine ⟨h.1, ?_⟩
  rw [h.2 2 (by decide)]
  decide

/-- Counterexample to C5 as stated: on the line `"abc\t5"` under the schema
`[(A, int), (B, int)]` the conversion of column A fails, yet column B — a
later schema column on that line — decodes to 5, not to None. -/
theorem convert_row_cex :
    convert_row "abc\t5" [("A", CType.cInt), ("B", CType.cInt)]
        = [("A", Value.vNone), ("B", Value.vInt 5)] ∧
    Value.vInt 5 ≠ Value.vNone := by decide

/-! ## Binary search: claim C3 -/

theorem sorted_getD_le (a : List Int) (ha : a.Pairwise (· ≤ ·)) {i j : Nat}
    (hij : i ≤ j) (hj : j < a.length) : a.getD i 0 ≤ a.getD j 0 := by
  rcases Nat.eq_or_lt_of_le hij with rfl | h
  · exact le_refl _
  · have := (List.pairwise_iff_get.mp ha) ⟨i, lt_trans h hj⟩ ⟨j, hj⟩ h
    rw [List.getD_eq_getElem _ _ (lt_trans h hj), List.getD_eq_getElem _ _ hj]
    simpa using this

/-- Loop invariant of bisect_left: starting from a window that already
separates the strictly-smaller prefix from the at-least-`x` suffix, the loop
returns the boundary position. -/
theorem bisectLeftAux_spec (a : List Int) (ha : a.Pairwise (· ≤ ·)) (x : Int) :
    ∀ fuel lo hi, lo ≤ a.length → hi ≤ a.length → hi - lo ≤ fuel →
      (∀ i, i < lo → a.getD i 0 < x) → (∀ i, hi ≤ i → i < a.length → x ≤ a.getD i 0) →
      (∀ i, i < bisectLeftAux a x fuel lo hi → a.getD i 0 < x) ∧
      (∀ i, bisectLeftAux a x fuel lo hi ≤ i → i < a.length → x ≤ a.getD i 0) ∧
      bisectLeftAux a x fuel lo hi ≤ a.length := by
  intro fuel
  induction fuel with
  | zero =>
    intro lo hi hlo hhi hf hbelow habove
    simp only [bisectLeftAux]
    refine ⟨hbelow, fun i hi1 hi2 => habove i (by omega) hi2, hlo⟩
  | succ fuel ih =>
    intro lo hi hlo hhi hf hbelow habove
    rw [bisectLeftAux]
    by_cases hlh : lo < hi
    · rw [if_pos hlh]
      have hmid1 : lo ≤ (lo + hi) / 2 := by omega
      have hmid2 : (lo + hi) / 2 < hi := by omega
      by_cases hm : a.getD ((lo + hi) / 2) 0 < x
      · rw [if_pos hm]
        refine ih ((lo + hi) / 2 + 1) hi (by omega) hhi (by omega) ?_ habove
        intro i hi1
        exact lt_of_le_of_lt (sorted_getD_le a ha (by omega) (by omega)) hm
      · rw [if_neg hm]
        refine ih lo ((lo + hi) / 2) hlo (by omega) (by omega) hbelow ?_
        intro i hi1 hi2
        exact le_trans (not_lt.mp hm) (sorted_getD_le a ha hi1 hi2)
    · rw [if_neg hlh]
      refine ⟨hbelow, fun i hi1 hi2 => habove i (by omega) hi2, hlo⟩

theorem bisectLeft_spec (a : List Int) (ha : a.Pairwise (· ≤ ·)) (x : Int) :
    (∀ i, i < bisectLeft a x → a.getD i 0 < x) ∧
    (∀ i, bisectLeft a x ≤ i → i < a.length → x ≤ a.getD i 0) ∧
    bisectLeft a x ≤ a.length :=
  bisectLeftAux_spec a ha x a.length 0 a.length (Nat.zero_le _) (le_refl _) (by omega)
    (fun i h => absurd h (Nat.not_lt_zero i)) (fun i h1 h2 => absurd h2 (by omega))

theorem bin_search_mem (s : List Int) (hs : s.Pairwise (· ≤ ·)) (x : Int) (hx : x ∈ s) :
    ∃ i, ∃ h : i < s.length, bin_search s x = some i ∧ s.get ⟨i, h⟩ = x := by
  obtain ⟨⟨j, hj⟩, hget⟩ := List.mem_iff_get.mp hx
  obtain ⟨h1, h2, _⟩ := bisectLeft_spec s hs x
  have hgj : s.getD j 0 = x := by
    rw [List.getD_eq_getElem _ _ hj]
    simpa using hget
  have hrj : bisectLeft s x ≤ j := by
    by_contra hcon
    have hlt := h1 j (not_le.mp hcon)
    rw [hgj] at hlt
    exact absurd hlt (lt_irrefl x)
  have hrlen : bisectLeft s x < s.length := lt_of_le_of_lt hrj hj
  have hge : x ≤ s.getD (bisectLeft s x) 0 := h2 _ (le_refl _) hrlen
  have hle : s.getD (bisectLeft s x) 0 ≤ x := by
    have h := sorted_getD_le s hs hrj hj
    rwa [hgj] at h
  have hgr : s.get ⟨bisectLeft s x, hrlen⟩ = x := by
    rw [List.get_eq_getElem, ← List.getD_eq_getElem _ (0 : Int) hrlen]
    exact le_antisymm hle hge
  refine ⟨bisectLeft s x, hrlen, ?_, hgr⟩
  rw [bin_search]
  rw [dif_pos hrlen, if_pos hgr]

theorem bin_search_not_mem (s : List Int) (_hs : s.Pairwise (· ≤ ·)) (x : Int) (hx : x ∉ s) :
    bin_search s x = none := by
  rw [bin_search]
  by_cases hr : bisectLeft s x < s.length
  · rw [dif_pos hr, if_neg]
    intro he
    exact hx (he ▸ List.get_mem s _ _)
  · rw [dif_neg hr]

/-- C3: bin_search over an ascending sequence returns the position of an
exact match when the value occurs, and None when it does not occur —
whether below the minimum, above the maximum, or between present values. -/
theorem bin_search_exact (s : List Int) (hs : s.Pairwise (· ≤ ·)) (x : Int) :
    (x ∈ s → ∃ i, ∃ h : i < s.length, bin_search s x = some i ∧ s.get ⟨i, h⟩ = x) ∧
    (x ∉ s → bin_search s x = none) :=
  ⟨bin_search_mem s hs x, bin_search_not_mem s hs x⟩

/-- Witness for C3 on the ascending list `[0, 1, 2, 3, 4, 10]`: the present
value 3 is located exactly, and the absent in-between value 5 yields
None. -/
theorem bin_search_exact_witness :
    (∃ i, ∃ h : i < ([0, 1, 2, 3, 4, 10] : List Int).length,
        bin_search [0, 1, 2, 3, 4, 10] 3 = some i ∧ [0, 1, 2, 3, 4, 10].get ⟨i, h⟩ = 3) ∧
    bin_search [0, 1, 2, 3, 4, 10] 5 = none :=
  ⟨(bin_search_exact [0, 1, 2, 3, 4, 10] (by decide) 3).1 (by decide),
   (bin_search_exact [0, 1, 2, 3, 4, 10] (by decide) 5).2 (by decide)⟩

/-! ## The sorted-file index: claim C2 -/

/-- The index entries (key, byte offset of its first line) a scan of the
file produces, written as one list of pairs; the reference point the
make_index loop is compared against. -/
def starts (last : Option Int) (beg : Nat) : List Line → List (Int × Nat)
  | [] => []
  | l :: rest =>
    (if last = some l.key then [] else [(l.key, beg)]) ++ starts (some l.key) (beg + l.len) rest

/-- The keys of the remaining lines are non-decreasing, and not below the
previously seen key when there is one. -/
def okFrom : Option Int → List Line → Prop
  | none, file => List.Chain' (· ≤ ·) (file.map Line.key)
  | some k, file => List.Chain' (· ≤ ·) (k :: file.map Line.key)

theorem okFrom_cons {last : Option Int} {l : Line} {rest : List Line}
    (h : okFrom last (l :: rest)) : okFrom (some l.key) rest := by
  cases last with
  | none => simpa [okFrom] using h
  | some k => exact (List.chain'_cons.mp (by simpa [okFrom] using h)).2

theorem okFrom_cons_le {k : Int} {l : Line} {rest : List Line}
    (h : okFrom (some k) (l :: rest)) : k ≤ l.key :=
  (List.chain'_cons.mp (by simpa [okFrom] using h)).1

theorem okFrom_le (file : List Line) :
    ∀ a, okFrom (some a) file → ∀ k ∈ file.map Line.key, a ≤ k := by
  induction file with
  | nil => simp
  | cons l rest ih =>
    intro a hok k hk
    simp only [List.map_cons, List.mem_cons] at hk
    rcases hk with rfl | hk
    · exact okFrom_cons_le hok
    · exact le_trans (okFrom_cons_le hok) (ih l.key (okFrom_cons hok) k hk)

theorem make_index_aux_eq_starts (file : List Line) :
    ∀ last beg, okFrom last file →
      make_index_aux last beg file =
        some ((starts last beg file).map Prod.fst, (starts last beg file).map Prod.snd) := by
  induction file with
  | nil => intro last beg _; simp [make_index_aux, starts]
  | cons l rest ih =>
    intro last beg hok
    have hrec := ih (some l.key) (beg + l.len) (okFrom_cons hok)
    cases last with
    | none =>
      simp only [make_index_aux, hrec]
      simp [starts]
    | some k =>
      have hk : ¬ k > l.key := not_lt.mpr (okFrom_cons_le hok)
      simp only [make_index_aux, hrec]
      rw [if_neg (by simpa using hk)]
      by_cases he : k = l.key
      · subst he
        simp [starts]
      · rw [if_neg (by simpa using he)]
        simp [starts, show (some k : Option Int) ≠ some l.key by simpa using he]

theorem make_index_aux_none (file : List Line) :
    ∀ last beg, ¬ okFrom last file → make_index_aux last beg file = none := by
  induction file with
  | nil =>
    intro last beg h
    exact absurd (by cases last <;> simp [okFrom]) h
  | cons l rest ih =>
    intro last beg h
    simp only [make_index_aux]
    cases last with
    | none =>
      have hr : ¬ okFrom (some l.key) rest := fun hok => h (by simpa [okFrom] using hok)
      rw [if_neg (by simp), ih (some l.key) (beg + l.len) hr]
    | some k =>
      by_cases hkl : l.key < k
      · rw [if_pos (by simpa using hkl)]
      · have hr : ¬ okFrom (some l.key) rest := by
          intro hok
          exact h (by
            simp only [okFrom, List.map_cons]
            exact List.chain'_cons.mpr ⟨not_lt.mp hkl, by simpa [okFrom] using hok⟩)
        rw [if_neg (by simpa using hkl), ih (some l.key) (beg + l.len) hr]

theorem starts_lb (file : List Line) :
    ∀ k beg, okFrom (some k) file → ∀ p ∈ starts (some k) beg file, k < p.1 := by
  induction file with
  | nil => simp [starts]
  | cons l rest ih =>
    intro k beg hok p hp
    simp only [starts, List.mem_append] at hp
    rcases hp with hp | hp
    · by_cases he : (some k : Option Int) = some l.key
      · rw [if_pos he] at hp
        simp at hp
      · rw [if_neg he] at hp
        simp only [List.mem_singleton] at hp
        subst hp
        exact lt_of_le_of_ne (okFrom_cons_le hok) (by simpa using he)
    · exact lt_of_le_of_lt (okFrom_cons_le hok) (ih l.key _ (okFrom_cons hok) p hp)

theorem starts_sorted (file : List Line) :
    ∀ last beg, okFrom last file →
      List.Chain' (· < ·) ((starts last beg file).map Prod.fst) := by
  induction file with
  | nil => intro last beg _; simp [starts]
  | cons l rest ih =>
    intro last beg hok
    have hrest : okFrom (some l.key) rest := okFrom_cons hok
    by_cases he : last = some l.key
    · simp only [starts, if_pos he, List.nil_append]
      exact ih _ _ hrest
    · simp only [starts, if_neg he, List.singleton_append, List.map_cons]
      refine List.chain'_cons'.mpr ⟨?_, ih _ _ hrest⟩
      intro y hy
      obtain ⟨p, hp, rfl⟩ :=
        List.mem_map.mp (List.mem_of_mem_head? hy)
      exact starts_lb rest l.key _ hrest p hp

theorem starts_mem_keys (file : List Line) :
    ∀ last beg (k : Int), okFrom last file →
      ((∃ o, (k, o) ∈ starts last beg file) ↔ (k ∈ file.map Line.key ∧ last ≠ some k)) := by
  induction file with
  | nil => simp [starts]
  | cons l rest ih =>
    intro last beg k hok
    have hrest : okFrom (some l.key) rest := okFrom_cons hok
    constructor
    · rintro ⟨o, ho⟩
      simp only [starts, List.mem_append] at ho
      rcases ho with ho | ho
      · by_cases he : last = some l.key
        · rw [if_pos he] at ho
          simp at ho
        · rw [if_neg he] at ho
          simp only [List.mem_singleton, Prod.mk.injEq] at ho
          obtain ⟨rfl, -⟩ := ho
          exact ⟨by simp, he⟩
      · obtain ⟨hk, hne⟩ := (ih (some l.key) _ k hrest).mp ⟨o, ho⟩
        refine ⟨by simp [hk], ?_⟩
        cases last with
        | none => simp
        | some lp =>
          intro hlp
          have h1 : lp ≤ l.key := okFrom_cons_le hok
          have h2 : l.key ≤ k := okFrom_le rest l.key hrest k hk
          have h3 : lp = k := by simpa using hlp
          exact hne (by rw [le_antisymm h2 (h3 ▸ h1)])
    · rintro ⟨hk, hne⟩
      simp only [List.map_cons, List.mem_cons] at hk
      by_cases he : l.key = k
      · refine ⟨beg, ?_⟩
        simp only [starts, List.mem_append]
        left
        rw [if_neg (by rw [he]; exact hne)]
        simp [he]
      · rcases hk with hk | hk
        · exact absurd hk.symm he
        · obtain ⟨o, ho⟩ := (ih (some l.key) (beg + l.len) k hrest).mpr ⟨hk, by simpa using he⟩
          exact ⟨o, by simp only [starts, List.mem_append]; right; exact ho⟩

theorem starts_decomp (file : List Line) :
    ∀ last beg, okFrom last file → ∀ k o, (k, o) ∈ starts last beg file →
      ∃ pre hd tl, file = pre ++ hd :: tl ∧ (∀ l ∈ pre, l.key ≠ k) ∧ hd.key = k ∧
        o = beg + sumLen pre := by
  induction file with
  | nil => simp [starts]
  | cons l rest ih =>
    intro last beg hok k o hko
    have hrest : okFrom (some l.key) rest := okFrom_cons hok
    simp only [starts, List.mem_append] at hko
    rcases hko with h | h
    · by_cases he : last = some l.key
      · rw [if_pos he] at h
        simp at h
      · rw [if_neg he] at h
        simp only [List.mem_singleton, Prod.mk.injEq] at h
        obtain ⟨rfl, rfl⟩ := h
        exact ⟨[], l, rest, by simp, by simp, rfl, by simp [sumLen]⟩
    · obtain ⟨pre, hd, tl, hfe, hpre, hhd, ho⟩ := ih (some l.key) (beg + l.len) hrest k o h
      refine ⟨l :: pre, hd, tl, by simp [hfe], ?_, hhd, ?_⟩
      · intro l' hl'
        rcases List.mem_cons.mp hl' with h1 | h1
        · rw [h1]
          exact ne_of_lt (starts_lb rest l.key _ hrest (k, o) h)
        · exact hpre l' h1
      · rw [ho]
        simp [sumLen]
        omega

/-- C2: on a file whose first-column keys are non-decreasing, make_index
returns two equal-length lists with exactly one entry per distinct key
value — the keys strictly increasing, each offset the byte offset (the
total byte length of the preceding lines) of the first line carrying its
key; on a file in which some key is strictly smaller than the previous key,
make_index returns None, with no partial index. -/
theorem make_index_contract (file : List Line) :
    (List.Chain' (· ≤ ·) (file.map Line.key) →
      ∃ ks os, make_index file = some (ks, os) ∧ ks.length = os.length ∧
        List.Chain' (· < ·) ks ∧ (∀ k, k ∈ ks ↔ k ∈ file.map Line.key) ∧
        ∀ i, ∀ hk : i < ks.length,
          ∃ pre hd tl, file = pre ++ hd :: tl ∧
            (∀ l ∈ pre, l.key ≠ ks.get ⟨i, hk⟩) ∧ hd.key = ks.get ⟨i, hk⟩ ∧
            os.getD i 0 = sumLen pre) ∧
    (¬ List.Chain' (· ≤ ·) (file.map Line.key) → make_index file = none) := by
  constructor
  · intro hs
    have hok : okFrom none file := hs
    refine ⟨(starts none 0 file).map Prod.fst, (starts none 0 file).map Prod.snd,
      make_index_aux_eq_starts file none 0 hok, by simp, starts_sorted file none 0 hok, ?_, ?_⟩
    · intro k
      constructor
      · intro hk
        obtain ⟨p, hp, he⟩ := List.mem_map.mp hk
        have : (k, p.2) ∈ starts none 0 file := by
          rw [← he]
          exact hp
        exact ((starts_mem_keys file none 0 k hok).mp ⟨p.2, this⟩).1
      · intro hk
        obtain ⟨o, ho⟩ := (starts_mem_keys file none 0 k hok).mpr ⟨hk, by simp⟩
        exact List.mem_map.mpr ⟨(k, o), ho, rfl⟩
    · intro i hk
      have hlen : i < (starts none 0 file).length := by simpa using hk
      have hkey : ((starts none 0 file).map Prod.fst).get ⟨i, hk⟩
          = ((starts none 0 file).get ⟨i, hlen⟩).1 := by
        simp
      have hoff : ((starts none 0 file).map Prod.snd).getD i 0
          = ((starts none 0 file).get ⟨i, hlen⟩).2 := by
        rw [List.getD_eq_getElem _ _ (by simpa using hk)]
        simp
      have hmem : (((starts none 0 file).get ⟨i, hlen⟩).1,
          ((starts none 0 file).get ⟨i, hlen⟩).2) ∈ starts none 0 file := by
        rw [Prod.mk.eta]
        exact List.get_mem _ _ _
      obtain ⟨pre, hd, tl, hfe, hpre, hhd, ho⟩ :=
        starts_decomp file none 0 hok _ _ hmem
      refine ⟨pre, hd, tl, hfe, ?_, ?_, ?_⟩
      · rw [hkey]
        exact hpre
      · rw [hkey]
        exact hhd
      · rw [hoff, ho]
        simp
  · intro hs
    exact make_index_aux_none file none 0 hs

/-- Witness for C2: a sorted three-line file indexes to keys `[1, 2]` with
offsets `[0, 8]`, and the unsorted key sequence `1, 1, 3, 2` yields None. -/
theorem make_index_contract_witness :
    (∃ ks os,
        make_index [⟨1, .vStr "a", 4⟩, ⟨1, .vStr "b", 4⟩, ⟨2, .vStr "c", 4⟩] = some (ks, os) ∧
        ks.length = os.length ∧ List.Chain' (· < ·) ks ∧
        (∀ k, k ∈ ks ↔
          k ∈ ([⟨1, .vStr "a", 4⟩, ⟨1, .vStr "b", 4⟩, ⟨2, .vStr "c", 4⟩] : List Line).map Line.key) ∧
        ∀ i, ∀ hk : i < ks.length,
          ∃ pre hd tl,
            ([⟨1, .vStr "a", 4⟩, ⟨1, .vStr "b", 4⟩, ⟨2, .vStr "c", 4⟩] : List Line)
              = pre ++ hd :: tl ∧
            (∀ l ∈ pre, l.key ≠ ks.get ⟨i, hk⟩) ∧ hd.key = ks.get ⟨i, hk⟩ ∧
            os.getD i 0 = sumLen pre) ∧
    make_index [⟨1, .vNone, 4⟩, ⟨1, .vNone, 4⟩, ⟨3, .vNone, 4⟩, ⟨2, .vNone, 4⟩] = none :=
  ⟨(make_index_contract [⟨1, .vStr "a", 4⟩, ⟨1, .vStr "b", 4⟩, ⟨2, .vStr "c", 4⟩]).1
     (by norm_num [List.chain'_cons]),
   (make_index_contract [⟨1, .vNone, 4⟩, ⟨1, .vNone, 4⟩, ⟨3, .vNone, 4⟩, ⟨2, .vNone, 4⟩]).2
     (by norm_num [List.chain'_cons])⟩

/-! ## The bounded group read: claims C4 and C7 -/

theorem genFrom_sumLen (pre post : List Line) (hpos : ∀ l ∈ pre, 0 < l.len) :
    genFrom (pre ++ post) (sumLen pre) = post := by
  induction pre with
  | nil => cases post <;> simp [genFrom, sumLen]
  | cons a pre ih =>
    have ha : 0 < a.len := hpos a (by simp)
    have hsum : sumLen (a :: pre) = a.len + sumLen pre := by simp [sumLen]
    simp only [List.cons_append, genFrom, hsum]
    rw [if_neg (by omega)]
    have : a.len + sumLen pre - a.len = sumLen pre := by omega
    rw [this]
    exact ih (fun l hl => hpos l (by simp [hl]))

theorem collectGroup_false (pid : Int) (xs : List Line) :
    collectGroup pid false xs
      = some ((xs.takeWhile (fun l => l.key == pid)).map Line.value) := by
  induction xs with
  | nil => simp [collectGroup]
  | cons l rest ih =>
    by_cases h : l.key = pid
    · simp [collectGroup, h, List.takeWhile_cons, ih]
    · simp [collectGroup, h, List.takeWhile_cons]

theorem dropWhile_append_first (p : Line → Bool) (pre : List Line) (hd : Line) (tl : List Line)
    (hpre : ∀ l ∈ pre, p l = true) (hhd : p hd = false) :
    (pre ++ hd :: tl).dropWhile p = hd :: tl := by
  induction pre with
  | nil => simp [List.dropWhile_cons, hhd]
  | cons a pre ih =>
    simp only [List.cons_append, List.dropWhile_cons, hpre a (by simp), if_true]
    exact ih (fun l hl => hpre l (by simp [hl]))

/-- C4: over a sorted child file with positive line lengths, the group read
through the index built from that file returns exactly the projected values
of the contiguous run of rows carrying the searched paper id, starting at
the indexed offset and stopping at the first differing key or end of file;
a paper id absent from the index yields the empty list, not an error. -/
theorem search_field_group (file : List Line) (hpos : ∀ l ∈ file, 0 < l.len)
    (hs : List.Chain' (· ≤ ·) (file.map Line.key)) (ks : List Int) (os : List Nat)
    (hmk : make_index file = some (ks, os)) (pid : Int) :
    search_field_for_paper pid ks os (genFrom file) false = some (groupSpec file pid) := by
  have hok : okFrom none file := hs
  have heq := make_index_aux_eq_starts file none 0 hok
  rw [make_index, heq] at hmk
  have hpair := Option.some.inj hmk
  have hks : (starts none 0 file).map Prod.fst = ks := congrArg Prod.fst hpair
  have hos : (starts none 0 file).map Prod.snd = os := congrArg Prod.snd hpair
  subst hks
  subst hos
  have hsorted : ((starts none 0 file).map Prod.fst).Pairwise (· ≤ ·) :=
    ((List.chain'_iff_pairwise.mp (starts_sorted file none 0 hok))).imp le_of_lt
  by_cases hpid : pid ∈ file.map Line.key
  · obtain ⟨o, ho⟩ := (starts_mem_keys file none 0 pid hok).mpr ⟨hpid, by simp⟩
    have hmem : pid ∈ (starts none 0 file).map Prod.fst :=
      List.mem_map.mpr ⟨(pid, o), ho, rfl⟩
    obtain ⟨i, hlt, hbin, hget⟩ := bin_search_mem _ hsorted pid hmem
    rw [search_field_for_paper, hbin]
    have hlen : i < (starts none 0 file).length := by simpa using hlt
    have hkey : ((starts none 0 file).get ⟨i, hlen⟩).1 = pid := by
      rw [← hget]
      simp
    have hgetD : ((starts none 0 file).map Prod.snd).getD i 0
        = ((starts none 0 file).get ⟨i, hlen⟩).2 := by
      rw [List.getD_eq_getElem _ _ (by simpa using hlen)]
      simp
    have hmemS : (pid, ((starts none 0 file).get ⟨i, hlen⟩).2) ∈ starts none 0 file := by
      rw [← hkey, Prod.mk.eta]
      exact List.get_mem _ _ _
    obtain ⟨pre, hd, tl, hfe, hpre, hhd, hoff⟩ := starts_decomp file none 0 hok _ _ hmemS
    show collectGroup pid false
        (genFrom file (((starts none 0 file).map Prod.snd).getD i 0)) = some (groupSpec file pid)
    rw [hgetD, hoff]
    simp only [Nat.zero_add]
    have hgen : genFrom file (sumLen pre) = hd :: tl := by
      rw [hfe]
      exact genFrom_sumLen pre (hd :: tl) (fun l hl => hpos l (by rw [hfe]; simp [hl]))
    rw [hgen, collectGroup_false]
    have hdrop : file.dropWhile (fun l => l.key != pid) = hd :: tl := by
      rw [hfe]
      refine dropWhile_append_first _ pre hd tl (fun l hl => by simpa using hpre l hl) ?_
      simp [hhd]
    rw [groupSpec, hdrop]
  · have hnot : pid ∉ (starts none 0 file).map Prod.fst := by
      intro hmem
      obtain ⟨p, hp, hfst⟩ := List.mem_map.mp hmem
      have : (pid, p.2) ∈ starts none 0 file := by
        rw [← hfst, Prod.mk.eta]
        exact hp
      exact hpid ((starts_mem_keys file none 0 pid hok).mp ⟨p.2, this⟩).1
    rw [search_field_for_paper, bin_search_not_mem _ hsorted pid hnot]
    show some ([] : List Value) = some (groupSpec file pid)
    have hdrop : file.dropWhile (fun l => l.key != pid) = [] := by
      rw [List.dropWhile_eq_nil_iff]
      intro l hl
      simp only [bne_iff_ne, ne_eq]
      intro hkey
      exact hpid (List.mem_map.mpr ⟨l, hl, hkey⟩)
    rw [groupSpec, hdrop]
    simp

/-- Witness for C4 on a concrete sorted file: the group of paper id 1 is the
two projected values of its two rows. -/
theorem search_field_group_witness :
    search_field_for_paper 1 [1, 2] [0, 8]
        (genFrom [⟨1, .vStr "a", 4⟩, ⟨1, .vStr "b", 4⟩, ⟨2, .vStr "c", 4⟩]) false
      = some (groupSpec [⟨1, .vStr "a", 4⟩, ⟨1, .vStr "b", 4⟩, ⟨2, .vStr "c", 4⟩] 1) :=
  search_field_group [⟨1, .vStr "a", 4⟩, ⟨1, .vStr "b", 4⟩, ⟨2, .vStr "c", 4⟩]
    (by decide) (by norm_num [List.chain'_cons]) [1, 2] [0, 8] (by decide) 1

theorem collectGroup_intern_eq (pid : Int) (xs : List Line)
    (h : ∀ l ∈ xs, ∃ s, l.value = .vStr s) :
    collectGroup pid true xs = collectGroup pid false xs := by
  induction xs with
  | nil => rfl
  | cons l rest ih =>
    by_cases hk : l.key = pid
    · obtain ⟨s, hs⟩ := h l (by simp)
      simp [collectGroup, hk, hs, intern, ih (fun l hl => h l (by simp [hl]))]
    · simp [collectGroup, hk]

/-- C7 (amended): when every value the generator can deliver is a string —
as is the case for the string-typed fields the join projects — interning is
invisible: search_field_for_paper with use_intern returns exactly the result
of the same call without it.  On a non-string projected value, however,
sys.intern raises TypeError, so the two calls do not succeed in the same
cases (see the counterexample). -/
theorem search_field_intern_eq (pid : Int) (ks : List Int) (os : List Nat)
    (gen : Nat → List Line) (h : ∀ off : Nat, ∀ l ∈ gen off, ∃ s, l.value = .vStr s) :
    search_field_for_paper pid ks os gen true = search_field_for_paper pid ks os gen false := by
  rw [search_field_for_paper, search_field_for_paper]
  cases hb : bin_search ks pid with
  | none => rfl
  | some i => exact collectGroup_intern_eq pid _ (h _)

/-- Witness for C7 (amended) on a one-row generator with a string value. -/
theorem search_field_intern_eq_witness :
    search_field_for_paper 1 [1] [0] (fun _ => [⟨1, Value.vStr "a", 2⟩]) true
      = search_field_for_paper 1 [1] [0] (fun _ => [⟨1, Value.vStr "a", 2⟩]) false :=
  search_field_intern_eq 1 [1] [0] _ (fun _ l hl => by
    simp only [List.mem_singleton] at hl
    exact ⟨"a", by rw [hl]⟩)

/-- Counterexample to C7 as stated: on a row whose projected field value is
None (as a short line produces), the call with use_intern dies of the
TypeError sys.intern raises, while the call without it succeeds and returns
the value — the two calls do not succeed in the same cases. -/
theorem search_field_intern_cex :
    search_field_for_paper 1 [1] [0] (fun _ => [⟨1, Value.vNone, 2⟩]) true
        ≠ search_field_for_paper 1 [1] [0] (fun _ => [⟨1, Value.vNone, 2⟩]) false ∧
    search_field_for_paper 1 [1] [0] (fun _ => [⟨1, Value.vNone, 2⟩]) true = none ∧
    search_field_for_paper 1 [1] [0] (fun _ => [⟨1, Value.vNone, 2⟩]) false
        = some [Value.vNone] := by
  decide

/-! ## The full-record join: claims C1, C6, C8, C9, C10 -/

theorem truthy_ne_vNone {v : Value} (h : truthy v = true) : v ≠ .vNone := by
  cases v <;> simp_all [truthy]

theorem foldl_addMulti (keyName valName : String) (rows : List (List (String × Value))) :
    ∀ (m : Value → List Value) (k : Value),
      (rows.foldl (fun m row => addMulti m (getField row keyName) (getField row valName)) m) k
        = m k ++ (rows.filter (fun row => getField row keyName == k)).map
            (fun row => getField row valName) := by
  induction rows with
  | nil => intro m k; simp
  | cons row rest ih =>
    intro m k
    simp only [List.foldl_cons, List.filter_cons]
    rw [ih]
    by_cases h : getField row keyName = k
    · subst h
      simp [addMulti]
    · rw [if_neg (by simp [h])]
      simp [addMulti, Ne.symm h]

theorem buildMulti_apply (rows : List (List (String × Value))) (keyName valName : String)
    (k : Value) :
    buildMulti rows keyName valName k
      = (rows.filter (fun row => getField row keyName == k)).map
          (fun row => getField row valName) := by
  rw [buildMulti, foldl_addMulti]
  simp

theorem paperFosAux_wf (thr : Rat) :
    ∀ rows : List (List (String × Value)),
      (∀ row ∈ rows, ∃ q, getField row "Score" = Value.vFloat q) →
      ∀ m : Value → List Value,
        paperFosAux thr rows m = some (fun k => m k ++
          ((rows.filter (fun row => (getField row "PaperId" == k) &&
              (pyGt (getField row "Score") thr == some true))).map
            (fun row => getField row "FieldOfStudyId"))) := by
  intro rows
  induction rows with
  | nil =>
    intro _ m
    simp only [paperFosAux, List.filter_nil, List.map_nil, List.append_nil]
  | cons row rest ih =>
    intro hwf m
    obtain ⟨q, hq⟩ := hwf row (by simp)
    have hrest := ih (fun r hr => hwf r (by simp [hr]))
    simp only [paperFosAux, hq, pyGt]
    rw [hrest]
    by_cases hlt : thr < q
    · simp only [decide_eq_true hlt, if_true]
      congr 1
      funext k
      simp only [List.filter_cons, hq, pyGt, decide_eq_true hlt]
      by_cases hk : getField row "PaperId" = k
      · subst hk
        simp [addMulti]
      · rw [if_neg (by simp [hk])]
        simp [addMulti, Ne.symm hk]
    · simp only [decide_eq_false hlt, if_false]
      congr 1
      funext k
      simp only [List.filter_cons, hq, pyGt, decide_eq_false hlt]
      have hfb : ((some false : Option Bool) == some true) = false := by decide
      simp only [hfb, Bool.and_false, Bool.false_eq_true, if_false]

theorem paperFosMap_wf (root : Root) (thr : Rat)
    (hwf : ∀ line ∈ root.paperFieldsOfStudy,
      ∃ q, getField (convert_row line PAPER_FIELDS_OF_STUDY) "Score" = Value.vFloat q) :
    paperFosMap root thr = some (fun k =>
      (((root.paperFieldsOfStudy.map (fun l => convert_row l PAPER_FIELDS_OF_STUDY)).filter
          (fun row => (getField row "PaperId" == k) &&
            (pyGt (getField row "Score") thr == some true))).map
        (fun row => getField row "FieldOfStudyId"))) := by
  rw [paperFosMap, paperFosAux_wf thr _ ?hwf (fun _ => [])]
  · congr 1
  case hwf =>
    intro row hrow
    obtain ⟨line, hline, rfl⟩ := List.mem_map.mp hrow
    exact hwf line hline

theorem emitOne_some {pa pr : Value → List Value} {fm jm : Value → Option Value}
    {pfos : Value → List Value} {row : List (String × Value)} {r : FullRecord}
    (h : emitOne pa pr fm jm pfos row = some r) :
    truthy r.PaperId = true ∧ truthy r.OriginalTitle = true ∧ truthy r.Year = true ∧
    r.Authors ≠ [] ∧ r.References ≠ [] ∧ r.Fields ≠ [] ∧
    r.PaperId = getField row "PaperId" ∧
    r.Authors = pa (getField row "PaperId") ∧
    r.References = pr (getField row "PaperId") ∧
    (pfos (getField row "PaperId")).mapM fm = some r.Fields := by
  simp only [emitOne] at h
  split at h
  · rename_i hg
    split at h
    · cases h
    · rename_i fields hmm
      split at h
      · rename_i hne
        obtain rfl := Option.some.inj h
        exact ⟨hg.1, hg.2.1, hg.2.2, hne.2.1, hne.2.2, hne.1, rfl, rfl, rfl, hmm⟩
      · cases h
  · cases h

/-- A concrete root whose PaperAuthorAffiliations file has paper ids
1, 1, 3, 2 — a decrease from 3 to 2, a sortedness violation. -/
def exRoot : Root :=
  { papers := ["1\t0\tdoi\tx\tT\tT\tb\t2020"]
    paperAuthorAffiliations :=
      ["1\t1\t1\t1\tAuthA\tX", "1\t1\t1\t2\tAuthB\tX", "3\t1\t1\t1\tAuthC\tX",
       "2\t1\t1\t1\tAuthD\tX"]
    paperReferences := ["1\t9"]
    fieldsOfStudy := ["7\t0\tit\tIT\tt\t1\t1\t1\t1\td"]
    paperFieldsOfStudy := ["1\t7\t0.5"]
    journals := [] }

/-- The record gen_full_records emits for `exRoot`. -/
def exRecord : FullRecord :=
  { PaperId := .vInt 1, OriginalTitle := .vStr "T", Year := .vInt 2020
    Authors := [.vStr "AuthA", .vStr "AuthB"], References := [.vInt 9]
    Fields := [.vStr "IT"], Doi := .vStr "doi", Journal := .vStr "" }

/-- C6: every record emitted by gen_full_records has non-null PaperId,
OriginalTitle and Year, and non-empty Authors, References and Fields lists,
whatever the input contents. -/
theorem gen_full_records_complete (root : Root) (thr : Rat) (recs : List FullRecord)
    (h : gen_full_records root thr = some recs) :
    ∀ r ∈ recs, r.PaperId ≠ .vNone ∧ r.OriginalTitle ≠ .vNone ∧ r.Year ≠ .vNone ∧
      r.Authors ≠ [] ∧ r.References ≠ [] ∧ r.Fields ≠ [] := by
  rw [gen_full_records] at h
  split at h
  · cases h
  · obtain rfl := Option.some.inj h
    intro r hr
    obtain ⟨row, hrow, he⟩ := List.mem_filterMap.mp hr
    obtain ⟨h1, h2, h3, h4, h5, h6, -⟩ := emitOne_some he
    exact ⟨truthy_ne_vNone h1, truthy_ne_vNone h2, truthy_ne_vNone h3, h4, h5, h6⟩

/-- Witness for C6 on the concrete root `exRoot`, whose run emits exactly
one record. -/
theorem gen_full_records_complete_witness :
    exRecord.PaperId ≠ .vNone ∧ exRecord.OriginalTitle ≠ .vNone ∧ exRecord.Year ≠ .vNone ∧
    exRecord.Authors ≠ [] ∧ exRecord.References ≠ [] ∧ exRecord.Fields ≠ [] :=
  gen_full_records_complete exRoot 0 [exRecord] (by decide) exRecord (by simp)

/-- C1 (amended): gen_full_records builds no index and performs no
sortedness check at all — it reads the child files wholly into per-paper
dictionaries.  For every root whose score column is numeric it succeeds, and
every emitted record carries as Authors and References exactly the values of
all child rows with its paper id, in file order, whether or not the child
files are sorted; in particular a root with an unsorted affiliations file
(make_index returns None on it) still yields records (see the
counterexample). -/
theorem gen_full_records_no_sort_check (root : Root) (thr : Rat)
    (hwf : ∀ line ∈ root.paperFieldsOfStudy,
      ∃ q, getField (convert_row line PAPER_FIELDS_OF_STUDY) "Score" = Value.vFloat q) :
    ∃ recs, gen_full_records root thr = some recs ∧
      ∀ r ∈ recs,
        r.Authors = ((root.paperAuthorAffiliations.map
              (fun l => convert_row l PAPER_AUTHOR_AFFILIATIONS_SCHEMA)).filter
            (fun row => getField row "PaperId" == r.PaperId)).map
          (fun row => getField row "OriginalAuthor") ∧
        r.References = ((root.paperReferences.map
              (fun l => convert_row l PAPER_REFERENCES)).filter
            (fun row => getField row "PaperId" == r.PaperId)).map
          (fun row => getField row "PaperReferenceId") := by
  have hp := paperFosMap_wf root thr hwf
  refine ⟨_, by rw [gen_full_records, hp], ?_⟩
  intro r hr
  obtain ⟨row, hrow, he⟩ := List.mem_filterMap.mp hr
  obtain ⟨-, -, -, -, -, -, h7, h8, h9, -⟩ := emitOne_some he
  constructor
  · rw [h8, paperAuthorsMap, buildMulti_apply, h7]
  · rw [h9, paperReferencesMap, buildMulti_apply, h7]

/-- Witness for C1 (amended) on `exRoot` — a root whose affiliations file
is unsorted. -/
theorem gen_full_records_no_sort_check_witness :
    ∃ recs, gen_full_records exRoot 0 = some recs ∧
      ∀ r ∈ recs,
        r.Authors = ((exRoot.paperAuthorAffiliations.map
              (fun l => convert_row l PAPER_AUTHOR_AFFILIATIONS_SCHEMA)).filter
            (fun row => getField row "PaperId" == r.PaperId)).map
          (fun row => getField row "OriginalAuthor") ∧
        r.References = ((exRoot.paperReferences.map
              (fun l => convert_row l PAPER_REFERENCES)).filter
            (fun row => getField row "PaperId" == r.PaperId)).map
          (fun row => getField row "PaperReferenceId") :=
  gen_full_records_no_sort_check exRoot 0 (fun line hl => by
    simp only [exRoot, List.mem_singleton] at hl
    subst hl
    exact ⟨mkRat 1 2, by decide⟩)

/-- The Line view make_index has of one raw child-file line: the integer in
the first tab-separated cell is the key, the projected field is the value,
and the byte length accounts for the line plus its newline. -/
def childLine (schema : Schema) (fieldName : String) (s : String) : Line :=
  { key := (pyInt ((rowCells s).getD 0 [])).getD 0
    value := getField (convert_row s schema) fieldName
    len := s.utf8ByteSize + 1 }

def childLines (schema : Schema) (fieldName : String) (lines : List String) : List Line :=
  lines.map (childLine schema fieldName)

/-- Counterexample to C1 as stated: on `exRoot` the affiliations file
violates sortedness — make_index on it fails with None — yet
gen_full_records does not abort: it yields one record, joined against that
unsorted child file. -/
theorem gen_full_records_unsorted_cex :
    make_index (childLines PAPER_AUTHOR_AFFILIATIONS_SCHEMA "OriginalAuthor"
        exRoot.paperAuthorAffiliations) = none ∧
    gen_full_records exRoot 0 = some [exRecord] ∧ exRecord.Authors ≠ [] := by decide

theorem emitOne_empty_fields (pa pr : Value → List Value) (fm jm : Value → Option Value)
    (row : List (String × Value)) :
    emitOne pa pr fm jm (fun _ => []) row = none := by
  rw [emitOne]
  split
  · rw [show List.mapM fm ([] : List Value) = some ([] : List Value) from rfl]
    simp
  · rfl

/-- C8: a paper-to-field-of-study association contributes to a record
exactly when its score strictly exceeds the threshold (the fields of every
emitted record are the filter of the associations by `threshold < score`,
an association with score equal to the threshold being excluded); and when
the threshold is at least every score, gen_full_records yields nothing at
all. -/
theorem gen_full_records_threshold (root : Root) (thr : Rat)
    (hwf : ∀ line ∈ root.paperFieldsOfStudy,
      ∃ q, getField (convert_row line PAPER_FIELDS_OF_STUDY) "Score" = Value.vFloat q) :
    (∃ recs, gen_full_records root thr = some recs ∧
      ∀ r ∈ recs,
        (((root.paperFieldsOfStudy.map (fun l => convert_row l PAPER_FIELDS_OF_STUDY)).filter
            (fun row => (getField row "PaperId" == r.PaperId) &&
              (pyGt (getField row "Score") thr == some true))).map
          (fun row => getField row "FieldOfStudyId")).mapM (fieldsOfStudyMap root)
            = some r.Fields) ∧
    ((∀ line ∈ root.paperFieldsOfStudy, ∀ q : Rat,
        getField (convert_row line PAPER_FIELDS_OF_STUDY) "Score" = Value.vFloat q → q ≤ thr) →
      gen_full_records root thr = some []) := by
  have hp := paperFosMap_wf root thr hwf
  constructor
  · refine ⟨_, by rw [gen_full_records, hp], ?_⟩
    intro r hr
    obtain ⟨row, hrow, he⟩ := List.mem_filterMap.mp hr
    obtain ⟨-, -, -, -, -, -, h7, -, -, h10⟩ := emitOne_some he
    rw [h7]
    exact h10
  · intro hle
    have hpz : paperFosMap root thr = some (fun _ => []) := by
      rw [hp]
      congr 1
      funext k
      rw [show (([] : List Value) = List.map (fun row => getField row "FieldOfStudyId") []) from
        rfl]
      congr 1
      rw [List.filter_eq_nil_iff]
      intro row hrow
      obtain ⟨line, hline, rfl⟩ := List.mem_map.mp hrow
      obtain ⟨q, hq⟩ := hwf line hline
      have hql := hle line hline q hq
      rw [hq]
      simp only [pyGt, Bool.and_eq_true, beq_iff_eq]
      rintro ⟨-, hcon⟩
      have : decide (thr < q) = true := by
        have := Option.some.inj hcon
        exact this
      exact absurd (of_decide_eq_true this) (not_lt.mpr hql)
    rw [gen_full_records, hpz]
    show some (List.filterMap (emitOne (paperAuthorsMap root) (paperReferencesMap root)
        (fieldsOfStudyMap root) (journalsMap root) (fun _ => []))
        (root.papers.map (fun l => convert_row l PAPERS_SCHEMA))) = some []
    have hnil : List.filterMap (emitOne (paperAuthorsMap root) (paperReferencesMap root)
        (fieldsOfStudyMap root) (journalsMap root) (fun _ => []))
        (root.papers.map (fun l => convert_row l PAPERS_SCHEMA)) = [] := by
      rw [List.filterMap_eq_nil_iff]
      intro row hrow
      exact emitOne_empty_fields _ _ _ _ row
    rw [hnil]

/-- Witness for C8: raising the threshold to 1, at least the only score 0.5
in `exRoot`, makes the output empty. -/
theorem gen_full_records_threshold_witness :
    gen_full_records exRoot 1 = some [] :=
  (gen_full_records_threshold exRoot 1
    (fun line hl => by
      simp only [exRoot, List.mem_singleton] at hl
      subst hl
      exact ⟨mkRat 1 2, by decide⟩)).2
    (fun line hl q hq => by
      simp only [exRoot, List.mem_singleton] at hl
      subst hl
      have hc : getField (convert_row "1\t7\t0.5" PAPER_FIELDS_OF_STUDY) "Score"
          = Value.vFloat (mkRat 1 2) := by decide
      rw [hc] at hq
      obtain rfl := Value.vFloat.inj hq
      decide)

theorem pair_get_sublist {α : Type} (l : List α) (i j : Nat) (hij : i < j) (hj : j < l.length) :
    [l.get ⟨i, lt_trans hij hj⟩, l.get ⟨j, hj⟩].Sublist l := by
  have hi : i < l.length := lt_trans hij hj
  have h1 : [l.get ⟨i, hi⟩].Sublist (l.take (i + 1)) := by
    rw [List.singleton_sublist]
    have hlt : i < (l.take (i + 1)).length := by
      simp only [List.length_take]
      omega
    have he : (l.take (i + 1)).get ⟨i, hlt⟩ = l.get ⟨i, hi⟩ := by
      simp only [List.get_eq_getElem]
      exact List.getElem_take l
    rw [← he]
    exact List.get_mem _ _ _
  have h2 : [l.get ⟨j, hj⟩].Sublist (l.drop (i + 1)) := by
    rw [List.singleton_sublist]
    have hlt : j - (i + 1) < (l.drop (i + 1)).length := by
      simp only [List.length_drop]
      omega
    have he : (l.drop (i + 1)).get ⟨j - (i + 1), hlt⟩ = l.get ⟨j, hj⟩ := by
      simp only [List.get_eq_getElem]
      rw [List.getElem_drop]
      congr 1
      omega
    rw [← he]
    exact List.get_mem _ _ _
  have happ := h1.append h2
  rw [List.take_append_drop] at happ
  exact happ

/-- C9: gen_full_records yields records in papers-file order — when two
paper rows at positions i < j both produce a record, the two records occur
in the output in that order (as the two-element sublist [a, b]); no
reordering or buffering takes place. -/
theorem gen_full_records_order (root : Root) (thr : Rat) (recs : List FullRecord)
    (pfos : Value → List Value) (hp : paperFosMap root thr = some pfos)
    (h : gen_full_records root thr = some recs)
    (i j : Nat) (hij : i < j) (hj : j < root.papers.length) (a b : FullRecord)
    (ha : emitOne (paperAuthorsMap root) (paperReferencesMap root) (fieldsOfStudyMap root)
        (journalsMap root) pfos
        (convert_row (root.papers.get ⟨i, lt_trans hij hj⟩) PAPERS_SCHEMA) = some a)
    (hb : emitOne (paperAuthorsMap root) (paperReferencesMap root) (fieldsOfStudyMap root)
        (journalsMap root) pfos
        (convert_row (root.papers.get ⟨j, hj⟩) PAPERS_SCHEMA) = some b) :
    [a, b].Sublist recs := by
  rw [gen_full_records, hp] at h
  obtain rfl := Option.some.inj h
  have hsub := pair_get_sublist root.papers i j hij hj
  have hsub2 := (hsub.map (fun l => convert_row l PAPERS_SCHEMA)).filterMap
    (emitOne (paperAuthorsMap root) (paperReferencesMap root) (fieldsOfStudyMap root)
      (journalsMap root) pfos)
  have hpair : List.filterMap
      (emitOne (paperAuthorsMap root) (paperReferencesMap root) (fieldsOfStudyMap root)
        (journalsMap root) pfos)
      (List.map (fun l => convert_row l PAPERS_SCHEMA)
        [root.papers.get ⟨i, lt_trans hij hj⟩, root.papers.get ⟨j, hj⟩]) = [a, b] := by
    have ha' := ha
    have hb' := hb
    simp only [List.get_eq_getElem] at ha' hb'
    simp [List.filterMap_cons, ha', hb']
  rw [hpair] at hsub2
  exact hsub2

/-- A two-paper root for the ordering witness. -/
def exRoot2 : Root :=
  { papers := ["1\t0\tdoi\tx\tT\tT\tb\t2020", "2\t0\tdoi\tx\tU\tU\tb\t2021"]
    paperAuthorAffiliations := ["1\t1\t1\t1\tAuthA\tX", "2\t1\t1\t1\tAuthB\tX"]
    paperReferences := ["1\t9", "2\t9"]
    fieldsOfStudy := ["7\t0\tit\tIT\tt\t1\t1\t1\t1\td"]
    paperFieldsOfStudy := ["1\t7\t0.5", "2\t7\t0.5"]
    journals := [] }

/-- The paper-to-field-ids map gen_full_records builds over `exRoot2`. -/
def exPfos : Value → List Value :=
  addMulti (addMulti (fun _ => []) (Value.vInt 1) (Value.vInt 7)) (Value.vInt 2) (Value.vInt 7)

/-- The first record emitted for `exRoot2`. -/
def exRecordA : FullRecord :=
  { PaperId := .vInt 1, OriginalTitle := .vStr "T", Year := .vInt 2020
    Authors := [.vStr "AuthA"], References := [.vInt 9]
    Fields := [.vStr "IT"], Doi := .vStr "doi", Journal := .vStr "" }

/-- The second record emitted for `exRoot2`. -/
def exRecordB : FullRecord :=
  { PaperId := .vInt 2, OriginalTitle := .vStr "U", Year := .vInt 2021
    Authors := [.vStr "AuthB"], References := [.vInt 9]
    Fields := [.vStr "IT"], Doi := .vStr "doi", Journal := .vStr "" }

/-- Witness for C9 on `exRoot2`: paper rows 0 and 1 both emit, and their
records appear in the output in that order. -/
theorem gen_full_records_order_witness :
    [exRecordA, exRecordB].Sublist [exRecordA, exRecordB] :=
  gen_full_records_order exRoot2 0 [exRecordA, exRecordB] exPfos rfl (by decide)
    0 1 (by decide) (by decide) exRecordA exRecordB (by decide) (by decide)

/-- C10: gen_full_records rejects a paper row whenever PaperId, OriginalTitle
or Year is falsy, not only when it is null: its per-row emission function
returns nothing for a row with PaperId 0, OriginalTitle the empty string, or
Year 0, whatever the other inputs; and a root all of whose paper rows are of
that shape produces no records at all. -/
theorem gen_full_records_falsy :
    (∀ (pa pr : Value → List Value) (fm jm : Value → Option Value)
        (pfos : Value → List Value) (row : List (String × Value)),
      (getField row "PaperId" = Value.vInt 0 ∨ getField row "OriginalTitle" = Value.vStr "" ∨
        getField row "Year" = Value.vInt 0) →
      emitOne pa pr fm jm pfos row = none) ∧
    (∀ (root : Root) (thr : Rat),
      (∀ line ∈ root.papers,
        getField (convert_row line PAPERS_SCHEMA) "PaperId" = Value.vInt 0 ∨
        getField (convert_row line PAPERS_SCHEMA) "OriginalTitle" = Value.vStr "" ∨
        getField (convert_row line PAPERS_SCHEMA) "Year" = Value.vInt 0) →
      ∀ recs, gen_full_records root thr = some recs → recs = []) := by
  have h1 : ∀ (pa pr : Value → List Value) (fm jm : Value → Option Value)
      (pfos : Value → List Value) (row : List (String × Value)),
      (getField row "PaperId" = Value.vInt 0 ∨ getField row "OriginalTitle" = Value.vStr "" ∨
        getField row "Year" = Value.vInt 0) →
      emitOne pa pr fm jm pfos row = none := by
    intro pa pr fm jm pfos row hfal
    rw [emitOne, if_neg]
    rintro ⟨c1, c2, c3⟩
    rcases hfal with hf | hf | hf
    · rw [hf] at c1
      exact absurd c1 (by decide)
    · rw [hf] at c2
      exact absurd c2 (by decide)
    · rw [hf] at c3
      exact absurd c3 (by decide)
  refine ⟨h1, ?_⟩
  intro root thr hall recs h
  rw [gen_full_records] at h
  split at h
  · cases h
  · obtain rfl := Option.some.inj h
    rw [List.filterMap_eq_nil_iff]
    intro row hrow
    obtain ⟨line, hline, rfl⟩ := List.mem_map.mp hrow
    exact h1 _ _ _ _ _ _ (hall line hline)

/-- A root whose only paper row carries PaperId 0 — a non-null but falsy
integer — while every child file would satisfy all other completeness
requirements. -/
def exRootZero : Root :=
  { exRoot with papers := ["0\t0\tdoi\tx\tT\tT\tb\t2020"] }

/-- Witness for C10: the emission function rejects a decoded paper row with
PaperId 0 even though its maps supply non-empty authors, references and
fields; and the run over `exRootZero` emits nothing. -/
theorem gen_full_records_falsy_witness :
    emitOne (fun _ => [Value.vStr "A"]) (fun _ => [Value.vInt 9])
        (fun _ => some (Value.vStr "IT")) (fun _ => none) (fun _ => [Value.vInt 7])
        (convert_row "0\t0\tdoi\tx\tT\tT\tb\t2020" PAPERS_SCHEMA) = none ∧
    ([] : List FullRecord) = [] :=
  ⟨gen_full_records_falsy.1 _ _ _ _ _ _ (Or.inl (by decide)),
   gen_full_records_falsy.2 exRootZero 0
     (fun line hl => by
       simp only [exRootZero, List.mem_singleton] at hl
       subst hl
       exact Or.inl (by decide))
     [] (by decide)⟩

end Mag
